import Mathlib

/-!
Verification of the style-flattening and editor-glue fragment of the
`gutenberg` repository.

The development shallowly embeds the JavaScript sources:

* `src/packages/block-editor/src/hooks/style.js`
  (`getCSSVariables`, `addAttribute`, `addSaveProps`, `addEditProps`);
* the unnamed selector module (`isItemPinned`, `getActiveComplementaryArea`);
* the unnamed navigation structure panel component.

JavaScript values are modelled by the inductive type `JVal`; JavaScript
objects are modelled as insertion-ordered association lists
(`List (String × JVal)`), with property assignment keeping the position of
an existing key, as JS objects do.  The lodash helpers used by the sources
(`kebabCase`, `entries`, `mapKeys`, `get`) are modelled on ASCII strings
(lodash's special treatment of ordinal suffixes such as `1st` and of
unicode is out of scope; no key in this development contains digits).
-/

namespace Gutenberg

/-- A JavaScript value, as the style-configuration code manipulates it:
a primitive leaf or a plain object (insertion-ordered string-keyed map). -/
inductive JVal : Type where
  | str (s : String)
  | num (n : Int)
  | bool (b : Bool)
  | null
  | undefined
  | obj (entries : List (String × JVal))

/-- A JavaScript plain object: ordered list of key/value pairs. -/
abbrev JObj : Type := List (String × JVal)

/-- Property lookup on an object (first binding of the key wins;
real JS objects never contain a duplicate key). -/
def jget : JObj → String → Option JVal
  | [], _ => none
  | (k', v) :: rest, k => if k' = k then some v else jget rest k

/-- JS property assignment `o[k] = v`: if the key exists its value is
updated in place (position preserved); otherwise the pair is appended. -/
def jassign (o : JObj) (k : String) (v : JVal) : JObj :=
  if (jget o k).isSome then
    o.map (fun p => if p.1 = k then (k, v) else p)
  else
    o ++ [(k, v)]

/-- JS object spread `{ ...a, ...b }`: assign every entry of `b`, in
order, into (a copy of) `a`. -/
def jmerge (a b : JObj) : JObj :=
  b.foldl (fun acc p => jassign acc p.1 p.2) a

/-- lodash `mapKeys(o, (_, key) => f key)`: rebuild the object with
transformed keys, later collisions overwriting earlier values. -/
def mapKeysF (f : String → String) (o : JObj) : JObj :=
  o.foldl (fun acc p => jassign acc (f p.1) p.2) []

/-- Keys of an object, in order. -/
def jkeys (o : JObj) : List String := o.map Prod.fst

/-- JS truthiness of a value. -/
def truthy : JVal → Bool
  | .str s => decide (s ≠ "")
  | .num n => decide (n ≠ 0)
  | .bool b => b
  | .null => false
  | .undefined => false
  | .obj _ => true

/-- lodash `isObject` (restricted to the values of this model: only a
plain object is an object; `null` is not). -/
def isObjB : JVal → Bool
  | .obj _ => true
  | _ => false

/-- JS `ToString` on the primitive values of the model, as used by the
string concatenation `value + 'px'`. -/
def jsToString : JVal → String
  | .str s => s
  | .num n => toString n
  | .bool b => if b then "true" else "false"
  | .null => "null"
  | .undefined => "undefined"
  | .obj _ => "[object Object]"

/-- lodash `entries` (a.k.a. `toPairs`) of an arbitrary value: an object
yields its own entries, a string yields index/character pairs, any other
primitive yields no entries. -/
def jsEntries : JVal → JObj
  | .obj o => o
  | .str s => s.data.enum.map (fun p => (toString p.1, JVal.str (String.mk [p.2])))
  | _ => []

/-! ### lodash `kebabCase`, on ASCII strings -/

def isLowerCh (c : Char) : Bool := decide (97 ≤ c.toNat) && decide (c.toNat ≤ 122)

def isUpperCh (c : Char) : Bool := decide (65 ≤ c.toNat) && decide (c.toNat ≤ 90)

def isDigitCh (c : Char) : Bool := decide (48 ≤ c.toNat) && decide (c.toNat ≤ 57)

/-- Lowercase an ASCII character. -/
def toLowCh (c : Char) : Char :=
  if isUpperCh c then Char.ofNat (c.toNat + 32) else c

/-- lodash strips apostrophes (U+0027, U+2019) before splitting words. -/
def stripApos (l : List Char) : List Char :=
  l.filter (fun c => decide (c.toNat ≠ 39) && decide (c.toNat ≠ 8217))

/-- Word splitting as lodash `words` performs it on ASCII input: maximal
runs of lowercase letters, of digits, and of uppercase letters, with an
uppercase run followed by lowercase donating its last letter to the next
word (`FOObar` → `FO`, `Obar`); every other character is a separator.
The `Nat` argument is recursion fuel; it never runs out when seeded with
the length of the list. -/
def wordsGo : Nat → List Char → List (List Char)
  | _, [] => []
  | 0, _ => []
  | fuel+1, c :: cs =>
    if isLowerCh c then
      (c :: cs.takeWhile isLowerCh) :: wordsGo fuel (cs.dropWhile isLowerCh)
    else if isDigitCh c then
      (c :: cs.takeWhile isDigitCh) :: wordsGo fuel (cs.dropWhile isDigitCh)
    else if isUpperCh c then
      match cs.takeWhile isUpperCh, cs.dropWhile isUpperCh with
      | [], rest =>
        match rest with
        | r :: _ =>
          if isLowerCh r then
            (c :: rest.takeWhile isLowerCh) :: wordsGo fuel (rest.dropWhile isLowerCh)
          else
            [c] :: wordsGo fuel rest
        | [] => [[c]]
      | t :: ts, rest =>
        match rest with
        | r :: _ =>
          if isLowerCh r then
            (c :: t :: ts).dropLast :: wordsGo fuel ((t :: ts).getLastD t :: rest)
          else
            (c :: t :: ts) :: wordsGo fuel rest
        | [] => [c :: t :: ts]
    else
      wordsGo fuel cs

/-- Join words with a single dash, as `kebabCase`'s reducer does. -/
def joinDash : List (List Char) → List Char
  | [] => []
  | [w] => w
  | w :: ws => w ++ '-' :: joinDash ws

/-- lodash `kebabCase`: split into words, lowercase each, join with `-`. -/
def kebabCase (s : String) : String :=
  String.mk (joinDash ((wordsGo (stripApos s.data).length (stripApos s.data)).map (List.map toLowCh)))

/-- A string is in dash case: nonempty lowercase words separated by
single dashes, with no leading or trailing dash.  The `Bool` argument
records whether the previous character was a lowercase letter. -/
def dashGo : Bool → List Char → Bool
  | prev, [] => prev
  | prev, c :: cs =>
    if isLowerCh c then dashGo true cs
    else if c = '-' then prev && dashGo false cs
    else false

def isDashCase (s : String) : Bool := dashGo false s.data

/-! ### `getCSSVariables` (src/packages/block-editor/src/hooks/style.js) -/

/-- The `valueFormatters` table of `getCSSVariables`: only `fontSize` has
a formatter, which appends `'px'` (JS string concatenation) to a truthy
value and returns a falsy value unchanged. -/
def valueFormatter (key : String) (v : JVal) : JVal :=
  if key = "fontSize" then
    if truthy v then JVal.str (jsToString v ++ "px") else v
  else v

/-- The body of the `getNestedCSSVariables` closure: walk the entries in
order, assigning a kebab-cased, formatter-adjusted binding for each
non-object leaf and merging the prefixed recursive flattening of each
object value into the accumulated result. -/
def gncvAux : List (String × JVal) → JObj → JObj
  | [], acc => acc
  | (k, v) :: rest, acc =>
    match v with
    | .obj sub =>
      gncvAux rest
        (jmerge acc (mapKeysF (fun subkey => kebabCase k ++ "--" ++ subkey) (gncvAux sub [])))
    | .str s => gncvAux rest (jassign acc (kebabCase k) (valueFormatter k (.str s)))
    | .num n => gncvAux rest (jassign acc (kebabCase k) (valueFormatter k (.num n)))
    | .bool b => gncvAux rest (jassign acc (kebabCase k) (valueFormatter k (.bool b)))
    | .null => gncvAux rest (jassign acc (kebabCase k) (valueFormatter k .null))
    | .undefined => gncvAux rest (jassign acc (kebabCase k) (valueFormatter k .undefined))

/-- The inner `getNestedCSSVariables` closure of `getCSSVariables`. -/
def getNestedCSSVariables (config : List (String × JVal)) : JObj :=
  gncvAux config []

/-- `getCSSVariables`: flatten a nested styles configuration and prefix
every key with `'--wp' + '--'`. -/
def getCSSVariables (styles : List (String × JVal)) : JObj :=
  mapKeysF (fun key => "--wp" ++ "--" ++ key) (getNestedCSSVariables styles)

/-- `getCSSVariables` as called on an arbitrary JS value (the `style`
attribute): a missing/`undefined` argument selects the `{}` default, and
`entries` of any other value drives the walk. -/
def getCSSVariablesVal (v : JVal) : JObj :=
  getCSSVariables (jsEntries v)

/-! ### Block settings and the registration filters (style.js) -/

/-- A block type / block settings object, as the filters in `style.js`
read and extend it: a `supports` declaration, an `attributes` schema and
an optional `getEditWrapperProps` function.  The host framework hands the
same kind of object to `addAttribute`/`addEditProps` (as `settings`) and
to `addSaveProps` (as `blockType`). -/
structure BlockSettings where
  supports : JObj
  attributes : JObj
  getEditWrapperProps : Option (JObj → JObj)

/-- Modelled from the spec: `COLOR_SUPPORT_KEY` is imported from the
sibling `color` hook module, which is not part of the sources; the spec
names the feature "color". -/
def COLOR_SUPPORT_KEY : String := "color"

/-- Modelled from the spec: `LINE_HEIGHT_SUPPORT_KEY` is imported from
the sibling `line-height` hook module, which is not part of the sources;
the spec names the feature "line-height". -/
def LINE_HEIGHT_SUPPORT_KEY : String := "line-height"

/-- Modelled from the spec: `FONT_SIZE_SUPPORT_KEY` is imported from the
sibling `font-size` hook module, which is not part of the sources; the
spec names the feature "font-size". -/
def FONT_SIZE_SUPPORT_KEY : String := "font-size"

def styleSupportKeys : List String :=
  [COLOR_SUPPORT_KEY, LINE_HEIGHT_SUPPORT_KEY, FONT_SIZE_SUPPORT_KEY]

/-- Modelled from the spec: `hasBlockSupport` comes from
`@wordpress/blocks`, which is not part of the sources; per the spec a
block type "declares support" for a feature through its `supports`
declaration schema (a feature is supported when declared truthy,
defaulting to false when absent). -/
def hasBlockSupport (blockType : BlockSettings) (key : String) : Bool :=
  truthy ((jget blockType.supports key).getD .undefined)

/-- `hasStyleSupport`: the block type supports at least one of the style
features. -/
def hasStyleSupport (blockType : BlockSettings) : Bool :=
  styleSupportKeys.any (fun key => hasBlockSupport blockType key)

/-- The default `style` attribute declaration added by `addAttribute`. -/
def styleAttributeDefault : JVal := JVal.obj [("type", JVal.str "object")]

/-- `addAttribute`: on block registration, if the block supports a style
feature and `settings.attributes.style` is falsy, install the default
`style` attribute declaration. -/
def addAttribute (settings : BlockSettings) : BlockSettings :=
  if !hasStyleSupport settings then settings
  else if truthy ((jget settings.attributes "style").getD .undefined) then settings
  else { settings with attributes := jassign settings.attributes "style" styleAttributeDefault }

/-- `addSaveProps`: if the block supports a style feature, set
`props.style` to `{ ...getCSSVariables(attributes.style), ...props.style }`
(in-place property assignment on the props object). -/
def addSaveProps (props : JObj) (blockType : BlockSettings) (attributes : JObj) : JObj :=
  if !hasStyleSupport blockType then props
  else
    jassign props "style"
      (JVal.obj (jmerge (getCSSVariablesVal ((jget attributes "style").getD .undefined))
                        (jsEntries ((jget props "style").getD .undefined))))

/-- `addEditProps`: if the block supports a style feature, replace
`settings.getEditWrapperProps` with a function that first calls the
previously registered one (starting from `{}` when there was none) and
then applies `addSaveProps` to its result. -/
def addEditProps (settings : BlockSettings) : BlockSettings :=
  if !hasStyleSupport settings then settings
  else
    { settings with
      getEditWrapperProps := some (fun attributes =>
        addSaveProps
          (match settings.getEditWrapperProps with
           | some f => f attributes
           | none => [])
          settings attributes) }

/-! ### Enable-item selectors (the unnamed selector module) -/

/-- The `enableItems` slice of the global application state. -/
structure EnableItemsState where
  singleEnableItems : JVal
  multipleEnableItems : JVal

/-- The global application state, as the selectors read it. -/
structure GlobalState where
  enableItems : EnableItemsState

/-- lodash `get(value, path)` with `undefined` default: walk the path,
yielding `undefined` as soon as a segment is missing or the current value
is not an object. -/
def jpath : JVal → List String → JVal
  | v, [] => v
  | .obj o, k :: rest => jpath ((jget o k).getD .undefined) rest
  | _, _ :: _ => .undefined

/-- `getSingleEnableItem`: lodash `get` over `singleEnableItems` with a
`null` default. -/
def getSingleEnableItem (state : GlobalState) (itemType scope : String) : JVal :=
  match jpath state.enableItems.singleEnableItems [itemType, scope] with
  | .undefined => .null
  | v => v

/-- `getActiveComplementaryArea`. -/
def getActiveComplementaryArea (state : GlobalState) (scope : String) : JVal :=
  getSingleEnableItem state "complementaryArea" scope

/-- `isMultipleEnabledItemEnabled`: strict equality (`===`) of the stored
value with `true`. -/
def isMultipleEnabledItemEnabled (state : GlobalState) (itemType scope item : String) : Bool :=
  match jpath state.enableItems.multipleEnableItems [itemType, scope, item] with
  | .bool b => b
  | _ => false

/-- `isItemPinned`. -/
def isItemPinned (state : GlobalState) (scope item : String) : Bool :=
  isMultipleEnabledItemEnabled state "pinnedItems" scope item

/-! ### The navigation structure panel (the unnamed component) -/

/-- The props handed to the `BlockNavigationList` widget. -/
structure BlockNavigationListProps (α σ : Type) where
  blocks : List α
  selectedBlockClientId : Option String
  selectBlock : σ
  showNestedBlocks : Bool
  showAppender : Bool

/-- What the panel body renders inside `PanelBody`: either nothing (the
conditional JSX evaluates to `false`) or the toolbar together with the
navigation list. -/
inductive NavPanelBody (α σ : Type) where
  | empty : NavPanelBody α σ
  | toolbarAndList (list : BlockNavigationListProps α σ) : NavPanelBody α σ

/-- The render output of `NavigationStructurePanel`: a panel with one
titled body. -/
structure NavPanelRender (α σ : Type) where
  panelBodyTitle : String
  body : NavPanelBody α σ

/-- `NavigationStructurePanel`: renders the toolbar and the block
navigation list inside the panel body only when `blocks` is nonempty; the
list highlights `selectedBlockClientIds[0]` and is rendered with
`showNestedBlocks` and `showAppender`.  `selectedBlockClientIds` is the
value the component selects from the `core/block-editor` store, and
`selectBlock` the action it dispatches. -/
def NavigationStructurePanel {α σ : Type} (blocks : List α)
    (selectedBlockClientIds : List String) (selectBlock : σ) : NavPanelRender α σ :=
  { panelBodyTitle := "Navigation structure",
    body :=
      if blocks.length ≠ 0 then
        .toolbarAndList
          { blocks := blocks
            selectedBlockClientId := selectedBlockClientIds.head?
            selectBlock := selectBlock
            showNestedBlocks := true
            showAppender := true }
      else .empty }

/-! ### Association-list lemmas -/

theorem jget_append_of_none {a : JObj} {k : String} (h : jget a k = none) (b : JObj) :
    jget (a ++ b) k = jget b k := by
  induction a with
  | nil => simp
  | cons p rest ih =>
    obtain ⟨k', v⟩ := p
    by_cases hk : k' = k
    · simp [jget, hk] at h
    · simp only [jget, List.cons_append, if_neg hk] at h ⊢
      exact ih h

theorem jget_append_of_some {a : JObj} {k : String} {v : JVal} (h : jget a k = some v)
    (b : JObj) : jget (a ++ b) k = some v := by
  induction a with
  | nil => simp [jget] at h
  | cons p rest ih =>
    obtain ⟨k', w⟩ := p
    by_cases hk : k' = k
    · simp only [jget, if_pos hk] at h ⊢
      exact h
    · simp only [jget, List.cons_append, if_neg hk] at h ⊢
      exact ih h

theorem jget_eq_none_iff {o : JObj} {k : String} : jget o k = none ↔ k ∉ jkeys o := by
  induction o with
  | nil => simp [jget, jkeys]
  | cons p rest ih =>
    obtain ⟨k', v⟩ := p
    by_cases hk : k' = k
    · simp [jget, hk, jkeys]
    · simp [jget, hk, jkeys, ih, Ne.symm hk]

theorem jget_map_assign_self {o : JObj} {k : String} (h : (jget o k).isSome) (v : JVal) :
    jget (o.map (fun p => if p.1 = k then (k, v) else p)) k = some v := by
  induction o with
  | nil => simp [jget] at h
  | cons p rest ih =>
    obtain ⟨k', w⟩ := p
    by_cases hk : k' = k
    · subst hk
      have hmap : ((k', w) :: rest).map (fun p => if p.1 = k' then (k', v) else p)
          = (k', v) :: rest.map (fun p => if p.1 = k' then (k', v) else p) := by
        simp
      rw [hmap]
      simp [jget]
    · have h' : (jget rest k).isSome := by simpa [jget, hk] using h
      have hmap : ((k', w) :: rest).map (fun p => if p.1 = k then (k, v) else p)
          = (k', w) :: rest.map (fun p => if p.1 = k then (k, v) else p) := by
        simp [hk]
      rw [hmap]
      simpa [jget, hk] using ih h'

theorem jget_map_assign_ne {o : JObj} {k k' : String} (hne : k' ≠ k) (v : JVal) :
    jget (o.map (fun p => if p.1 = k then (k, v) else p)) k' = jget o k' := by
  induction o with
  | nil => simp [jget]
  | cons p rest ih =>
    obtain ⟨k'', w⟩ := p
    by_cases hk : k'' = k
    · subst hk
      have hmap : ((k'', w) :: rest).map (fun p => if p.1 = k'' then (k'', v) else p)
          = (k'', v) :: rest.map (fun p => if p.1 = k'' then (k'', v) else p) := by
        simp
      rw [hmap]
      simp only [jget, if_neg (Ne.symm hne)]
      exact ih
    · have hmap : ((k'', w) :: rest).map (fun p => if p.1 = k then (k, v) else p)
          = (k'', w) :: rest.map (fun p => if p.1 = k then (k, v) else p) := by
        simp [hk]
      rw [hmap]
      by_cases hk' : k'' = k'
      · simp [jget, hk']
      · simp only [jget, if_neg hk']
        exact ih

theorem jget_jassign_self (o : JObj) (k : String) (v : JVal) :
    jget (jassign o k v) k = some v := by
  unfold jassign
  by_cases h : (jget o k).isSome
  · simpa [h] using jget_map_assign_self h v
  · have hnone : jget o k = none := by
      cases hh : jget o k with
      | none => rfl
      | some w => simp [hh] at h
    simp only [h, if_neg, Bool.false_eq_true, if_false]
    rw [jget_append_of_none hnone]
    simp [jget]

theorem jget_jassign_ne {k k' : String} (hne : k' ≠ k) (o : JObj) (v : JVal) :
    jget (jassign o k v) k' = jget o k' := by
  unfold jassign
  by_cases h : (jget o k).isSome
  · simpa [h] using jget_map_assign_ne hne v
  · simp only [h, Bool.false_eq_true, if_false]
    cases hh : jget o k' with
    | none => rw [jget_append_of_none hh]; simp [jget, Ne.symm hne]
    | some w => rw [jget_append_of_some hh]

theorem mem_jassign {p : String × JVal} {o : JObj} {k : String} {v : JVal}
    (h : p ∈ jassign o k v) : p.1 = k ∨ p ∈ o := by
  unfold jassign at h
  by_cases hs : (jget o k).isSome
  · simp only [hs, if_true] at h
    obtain ⟨q, hq, hpq⟩ := List.mem_map.mp h
    by_cases hqk : q.1 = k
    · left
      rw [← hpq]
      simp [hqk]
    · right
      rw [← hpq]
      simpa [hqk] using hq
  · simp only [hs, Bool.false_eq_true, if_false] at h
    rcases List.mem_append.mp h with h' | h'
    · exact Or.inr h'
    · left
      simp only [List.mem_singleton] at h'
      rw [h']

theorem jget_jmerge_of_not_mem {b : JObj} {k : String} (h : k ∉ jkeys b) (a : JObj) :
    jget (jmerge a b) k = jget a k := by
  induction b generalizing a with
  | nil => rfl
  | cons p rest ih =>
    simp only [jkeys, List.map_cons, List.mem_cons, not_or] at h
    have step : jmerge a (p :: rest) = jmerge (jassign a p.1 p.2) rest := rfl
    rw [step, ih (by simpa [jkeys] using h.2), jget_jassign_ne h.1]

theorem jget_jmerge_of_some {b : JObj} (hnd : (jkeys b).Nodup) {k : String} {v : JVal}
    (h : jget b k = some v) (a : JObj) : jget (jmerge a b) k = some v := by
  induction b generalizing a with
  | nil => simp [jget] at h
  | cons p rest ih =>
    obtain ⟨k', w⟩ := p
    simp only [jkeys, List.map_cons, List.nodup_cons] at hnd
    have step : jmerge a ((k', w) :: rest) = jmerge (jassign a k' w) rest := rfl
    by_cases hk : k' = k
    · subst hk
      have hv : v = w := by simpa [jget] using h.symm
      subst hv
      have hnot : k' ∉ jkeys rest := by simpa [jkeys] using hnd.1
      rw [step, jget_jmerge_of_not_mem hnot, jget_jassign_self]
    · have h' : jget rest k = some v := by simpa [jget, hk] using h
      rw [step, ih hnd.2 h']

theorem keyShape_foldl {f : String → String} :
    ∀ (o : List (String × JVal)) (acc : JObj),
      (∀ q ∈ acc, ∃ k, q.1 = f k) →
      ∀ p ∈ o.foldl (fun a q => jassign a (f q.1) q.2) acc, ∃ k, p.1 = f k := by
  intro o
  induction o with
  | nil => intro acc hacc p hp; exact hacc p hp
  | cons q rest ih =>
    intro acc hacc p hp
    simp only [List.foldl_cons] at hp
    refine ih _ ?_ p hp
    intro r hr
    rcases mem_jassign hr with h | h
    · exact ⟨q.1, h⟩
    · exact hacc r h

theorem mem_mapKeysF {f : String → String} {o : JObj} {p : String × JVal}
    (h : p ∈ mapKeysF f o) : ∃ k, p.1 = f k :=
  keyShape_foldl o [] (by simp) p h

theorem foldl_jassign_append {fk : String × JVal → String} {fv : String × JVal → JVal} :
    ∀ (o : List (String × JVal)) (acc : JObj),
      (o.map fk).Nodup → (∀ q ∈ o, jget acc (fk q) = none) →
      o.foldl (fun a q => jassign a (fk q) (fv q)) acc
        = acc ++ o.map (fun q => (fk q, fv q)) := by
  intro o
  induction o with
  | nil => intro acc _ _; simp
  | cons q rest ih =>
    intro acc hnd hfresh
    simp only [List.map_cons, List.nodup_cons] at hnd
    have hq : jget acc (fk q) = none := hfresh q (List.mem_cons_self q rest)
    have step : jassign acc (fk q) (fv q) = acc ++ [(fk q, fv q)] := by
      unfold jassign
      simp [hq]
    have hfresh' : ∀ r ∈ rest, jget (acc ++ [(fk q, fv q)]) (fk r) = none := by
      intro r hr
      have h1 : jget acc (fk r) = none := hfresh r (List.mem_cons_of_mem q hr)
      rw [jget_append_of_none h1]
      have hne : fk r ≠ fk q := by
        intro he
        exact hnd.1 (by rw [← he]; exact List.mem_map_of_mem fk hr)
      simp only [jget]
      rw [if_neg (fun h => hne h.symm)]
    simp only [List.foldl_cons, step]
    rw [ih (acc ++ [(fk q, fv q)]) hnd.2 hfresh']
    simp

theorem mapKeysF_eq_map {f : String → String} {o : JObj}
    (hnd : (o.map (fun q => f q.1)).Nodup) :
    mapKeysF f o = o.map (fun q => (f q.1, q.2)) := by
  unfold mapKeysF
  have h := @foldl_jassign_append (fun q => f q.1) (fun q => q.2) o [] hnd (fun q _ => rfl)
  simpa using h

theorem gncvAux_flat :
    ∀ (l : List (String × JVal)) (acc : JObj), (∀ q ∈ l, isObjB q.2 = false) →
      gncvAux l acc
        = l.foldl (fun a q => jassign a (kebabCase q.1) (valueFormatter q.1 q.2)) acc := by
  intro l
  induction l with
  | nil => intro acc _; simp only [gncvAux, List.foldl_nil]
  | cons q rest ih =>
    intro acc h
    obtain ⟨k, v⟩ := q
    have hv := h (k, v) (List.mem_cons_self _ _)
    have hrest : ∀ r ∈ rest, isObjB r.2 = false :=
      fun r hr => h r (List.mem_cons_of_mem _ hr)
    cases v with
    | obj o => simp [isObjB] at hv
    | str s => simp only [gncvAux, List.foldl_cons]; exact ih _ hrest
    | num n => simp only [gncvAux, List.foldl_cons]; exact ih _ hrest
    | bool b => simp only [gncvAux, List.foldl_cons]; exact ih _ hrest
    | null => simp only [gncvAux, List.foldl_cons]; exact ih _ hrest
    | undefined => simp only [gncvAux, List.foldl_cons]; exact ih _ hrest

/-! ### Dash-case strings are fixed points of `kebabCase` -/

theorem isLowerCh_bounds {c : Char} (h : isLowerCh c = true) :
    97 ≤ c.toNat ∧ c.toNat ≤ 122 := by
  simpa [isLowerCh] using h

theorem not_upper_of_lower {c : Char} (h : isLowerCh c = true) : isUpperCh c = false := by
  obtain ⟨h1, h2⟩ := isLowerCh_bounds h
  simp only [isUpperCh, Bool.and_eq_false_imp, decide_eq_true_eq, decide_eq_false_iff_not]
  omega

theorem toLowCh_of_lower {c : Char} (h : isLowerCh c = true) : toLowCh c = c := by
  unfold toLowCh
  rw [not_upper_of_lower h]
  simp

theorem isLowerCh_dash : isLowerCh '-' = false := by decide

theorem isUpperCh_dash : isUpperCh '-' = false := by decide

theorem isDigitCh_dash : isDigitCh '-' = false := by decide

theorem dashGo_chars : ∀ (l : List Char) (b : Bool), dashGo b l = true →
    ∀ c ∈ l, isLowerCh c = true ∨ c = '-' := by
  intro l
  induction l with
  | nil => intro b _ c hc; simp at hc
  | cons d ds ih =>
    intro b h c hc
    by_cases hd : isLowerCh d = true
    · rcases List.mem_cons.mp hc with rfl | hc'
      · exact Or.inl hd
      · exact ih true (by simpa [dashGo, hd] using h) c hc'
    · by_cases hd' : d = '-'
      · subst hd'
        have h' : dashGo false ds = true := by
          simp [dashGo, isLowerCh_dash] at h
          exact h.2
        rcases List.mem_cons.mp hc with rfl | hc'
        · exact Or.inr rfl
        · exact ih false h' c hc'
      · simp [dashGo, hd, hd'] at h

theorem dashGo_head {l : List Char} (h : dashGo false l = true) :
    ∃ c cs, l = c :: cs ∧ isLowerCh c = true := by
  cases l with
  | nil => simp [dashGo] at h
  | cons c cs =>
    by_cases hc : isLowerCh c = true
    · exact ⟨c, cs, rfl, hc⟩
    · by_cases hd : c = '-'
      · subst hd
        simp [dashGo, isLowerCh_dash] at h
      · simp [dashGo, hc, hd] at h

theorem dashGo_true_dropWhile : ∀ (cs : List Char), dashGo true cs = true →
    cs.dropWhile isLowerCh = []
      ∨ ∃ rest', cs.dropWhile isLowerCh = '-' :: rest' ∧ dashGo false rest' = true := by
  intro cs
  induction cs with
  | nil => intro _; exact Or.inl rfl
  | cons c cs' ih =>
    intro h
    by_cases hc : isLowerCh c = true
    · rw [List.dropWhile_cons_of_pos hc]
      exact ih (by simpa [dashGo, hc] using h)
    · by_cases hd : c = '-'
      · subst hd
        refine Or.inr ⟨cs', ?_, ?_⟩
        · rw [List.dropWhile_cons_of_neg (by simp [isLowerCh_dash])]
        · simpa [dashGo, isLowerCh_dash] using h
      · simp [dashGo, hc, hd] at h

theorem wordsGo_nil (fuel : Nat) : wordsGo fuel [] = [] := by
  cases fuel <;> rfl

theorem joinDash_cons {w : List Char} {ws : List (List Char)} (h : ws ≠ []) :
    joinDash (w :: ws) = w ++ '-' :: joinDash ws := by
  cases ws with
  | nil => exact absurd rfl h
  | cons w' ws' => rfl

theorem wordsGo_dash (fuel : Nat) (l : List Char) (hf : l.length ≤ fuel)
    (h : dashGo false l = true) :
    wordsGo fuel l ≠ [] ∧ (∀ w ∈ wordsGo fuel l, ∀ c ∈ w, isLowerCh c = true)
      ∧ joinDash (wordsGo fuel l) = l := by
  obtain ⟨c, cs, rfl, hc⟩ := dashGo_head h
  cases fuel with
  | zero => simp at hf
  | succ g =>
    have hcs : dashGo true cs = true := by simpa [dashGo, hc] using h
    have hstep : wordsGo (g+1) (c::cs)
        = (c :: cs.takeWhile isLowerCh) :: wordsGo g (cs.dropWhile isLowerCh) := by
      simp [wordsGo, hc]
    have hlen : cs.length ≤ g := by
      simp only [List.length_cons] at hf
      omega
    have hword : ∀ x ∈ c :: cs.takeWhile isLowerCh, isLowerCh x = true := by
      intro x hx
      rcases List.mem_cons.mp hx with rfl | hx'
      · exact hc
      · exact List.mem_takeWhile_imp hx'
    rcases dashGo_true_dropWhile cs hcs with hnil | ⟨rest', hrest, hrest'⟩
    · rw [hstep, hnil, wordsGo_nil]
      have htake : cs.takeWhile isLowerCh = cs := by
        have h2 := List.takeWhile_append_dropWhile isLowerCh cs
        rwa [hnil, List.append_nil] at h2
      refine ⟨by simp, ?_, ?_⟩
      · intro w hw
        rcases List.mem_cons.mp hw with rfl | hw'
        · exact hword
        · simp at hw'
      · show joinDash [c :: cs.takeWhile isLowerCh] = c :: cs
        rw [htake]
        rfl
    · have hlenr : rest'.length + 1 ≤ g := by
        have h1 : (cs.dropWhile isLowerCh).length ≤ cs.length :=
          List.Sublist.length_le (List.dropWhile_sublist _)
        rw [hrest] at h1
        simp only [List.length_cons] at h1
        omega
      cases g with
      | zero => omega
      | succ g' =>
        have hstep2 : wordsGo (g'+1) ('-' :: rest') = wordsGo g' rest' := by
          simp [wordsGo, isLowerCh_dash, isDigitCh_dash, isUpperCh_dash]
        obtain ⟨hne, hall, hjoin⟩ := wordsGo_dash g' rest' (by omega) hrest'
        rw [hstep, hrest, hstep2]
        refine ⟨by simp, ?_, ?_⟩
        · intro w hw
          rcases List.mem_cons.mp hw with rfl | hw'
          · exact hword
          · exact hall w hw'
        · rw [joinDash_cons hne, hjoin]
          have h2 := List.takeWhile_append_dropWhile isLowerCh cs
          rw [hrest] at h2
          simp only [List.cons_append]
          rw [h2]
termination_by fuel

theorem mapToLow_word {w : List Char} (h : ∀ c ∈ w, isLowerCh c = true) :
    w.map toLowCh = w := by
  induction w with
  | nil => rfl
  | cons c cs ih =>
    simp only [List.map_cons]
    rw [toLowCh_of_lower (h c (List.mem_cons_self _ _)),
      ih (fun x hx => h x (List.mem_cons_of_mem _ hx))]

theorem mapToLow_words {ws : List (List Char)}
    (h : ∀ w ∈ ws, ∀ c ∈ w, isLowerCh c = true) :
    ws.map (List.map toLowCh) = ws := by
  induction ws with
  | nil => rfl
  | cons w ws' ih =>
    simp only [List.map_cons]
    rw [mapToLow_word (h w (List.mem_cons_self _ _)),
      ih (fun x hx => h x (List.mem_cons_of_mem _ hx))]

theorem stripApos_of_chars {l : List Char} (h : ∀ c ∈ l, isLowerCh c = true ∨ c = '-') :
    stripApos l = l := by
  apply List.filter_eq_self.mpr
  intro c hc
  rcases h c hc with hl | hd
  · obtain ⟨h1, h2⟩ := isLowerCh_bounds hl
    simp only [Bool.and_eq_true, decide_eq_true_eq]
    omega
  · subst hd
    decide

theorem kebabCase_of_dashCase {s : String} (h : isDashCase s = true) : kebabCase s = s := by
  unfold isDashCase at h
  have hchars := dashGo_chars s.data false h
  have hstrip : stripApos s.data = s.data := stripApos_of_chars hchars
  unfold kebabCase
  rw [hstrip]
  obtain ⟨hne, hall, hjoin⟩ := wordsGo_dash s.data.length s.data le_rfl h
  rw [mapToLow_words hall, hjoin]

theorem valueFormatter_of_dashCase {k : String} (h : isDashCase k = true) (v : JVal) :
    valueFormatter k v = v := by
  have hk : k ≠ "fontSize" := by
    intro hk
    rw [hk] at h
    exact absurd h (by decide)
  simp [valueFormatter, hk]

theorem gncvAux_dash : ∀ (s : List (String × JVal)) (acc : JObj),
    (∀ p ∈ s, isDashCase p.1 = true ∧ isObjB p.2 = false) →
    (jkeys s).Nodup → (∀ p ∈ s, jget acc p.1 = none) →
    gncvAux s acc = acc ++ s := by
  intro s
  induction s with
  | nil => intro acc _ _ _; simp [gncvAux]
  | cons q rest ih =>
    intro acc h hnd hfresh
    obtain ⟨k, v⟩ := q
    obtain ⟨hdash, hobj⟩ := h (k, v) (List.mem_cons_self _ _)
    have hstep : gncvAux ((k, v) :: rest) acc
        = gncvAux rest (jassign acc (kebabCase k) (valueFormatter k v)) := by
      cases v with
      | obj o => simp [isObjB] at hobj
      | str s => simp only [gncvAux]
      | num n => simp only [gncvAux]
      | bool b => simp only [gncvAux]
      | null => simp only [gncvAux]
      | undefined => simp only [gncvAux]
    rw [hstep, kebabCase_of_dashCase hdash, valueFormatter_of_dashCase hdash]
    have hknone : jget acc k = none := hfresh (k, v) (List.mem_cons_self _ _)
    have hassign : jassign acc k v = acc ++ [(k, v)] := by
      unfold jassign
      simp [hknone]
    rw [hassign]
    simp only [jkeys, List.map_cons, List.nodup_cons] at hnd
    have hfresh' : ∀ r ∈ rest, jget (acc ++ [(k, v)]) r.1 = none := by
      intro r hr
      rw [jget_append_of_none (hfresh r (List.mem_cons_of_mem _ hr))]
      have hrk : r.1 ≠ k := by
        intro he
        exact hnd.1 (by rw [← he]; exact List.mem_map_of_mem Prod.fst hr)
      simp only [jget]
      rw [if_neg (fun hh => hrk hh.symm)]
    rw [ih (acc ++ [(k, v)]) (fun r hr => h r (List.mem_cons_of_mem _ hr))
      (by simpa [jkeys] using hnd.2) hfresh']
    simp

theorem getNestedCSSVariables_dash {s : List (String × JVal)}
    (h : ∀ p ∈ s, isDashCase p.1 = true ∧ isObjB p.2 = false)
    (hnd : (jkeys s).Nodup) :
    getNestedCSSVariables s = s := by
  unfold getNestedCSSVariables
  rw [gncvAux_dash s [] h hnd (fun p _ => rfl)]
  simp

theorem wp_append (k : String) : "--wp" ++ "--" ++ k = "--wp--" ++ k := by
  apply String.ext
  rw [String.data_append, String.data_append, String.data_append]
  rfl

theorem str_append_assoc (a b c : String) : a ++ b ++ c = a ++ (b ++ c) := by
  apply String.ext
  rw [String.data_append, String.data_append, String.data_append, String.data_append,
    List.append_assoc]

theorem wp_inj {a b : String} (h : "--wp--" ++ a = "--wp--" ++ b) : a = b := by
  have hd := congrArg String.data h
  rw [String.data_append, String.data_append] at hd
  exact String.ext (List.append_cancel_left hd)

/-! ### Evaluation lemmas for small configurations -/

theorem jassign_nil (k : String) (v : JVal) : jassign [] k v = [(k, v)] := by
  unfold jassign
  simp [jget]

theorem jmerge_nil_single (k : String) (v : JVal) : jmerge [] [(k, v)] = [(k, v)] := by
  unfold jmerge
  simp only [List.foldl_cons, List.foldl_nil]
  exact jassign_nil k v

theorem mapKeysF_single (f : String → String) (k : String) (v : JVal) :
    mapKeysF f [(k, v)] = [(f k, v)] := by
  unfold mapKeysF
  simp only [List.foldl_cons, List.foldl_nil]
  exact jassign_nil (f k) v

theorem gncvAux_leaf_singleton (k : String) {v : JVal} (hv : isObjB v = false) (acc : JObj) :
    gncvAux [(k, v)] acc = jassign acc (kebabCase k) (valueFormatter k v) := by
  cases v with
  | obj o => simp [isObjB] at hv
  | str s => simp only [gncvAux]
  | num n => simp only [gncvAux]
  | bool b => simp only [gncvAux]
  | null => simp only [gncvAux]
  | undefined => simp only [gncvAux]

theorem getCSSVariables_single_leaf {k : String} {v : JVal} (hv : isObjB v = false) :
    getCSSVariables [(k, v)] = [("--wp--" ++ kebabCase k, valueFormatter k v)] := by
  unfold getCSSVariables getNestedCSSVariables
  rw [gncvAux_leaf_singleton k hv, jassign_nil, mapKeysF_single, wp_append]

theorem getCSSVariables_single_nested {a b : String} {v : JVal} (hv : isObjB v = false) :
    getCSSVariables [(a, JVal.obj [(b, v)])]
      = [("--wp--" ++ kebabCase a ++ "--" ++ kebabCase b, valueFormatter b v)] := by
  unfold getCSSVariables getNestedCSSVariables
  have h1 : gncvAux [(b, v)] [] = [(kebabCase b, valueFormatter b v)] := by
    rw [gncvAux_leaf_singleton b hv, jassign_nil]
  simp only [gncvAux]
  rw [h1, mapKeysF_single, jmerge_nil_single, mapKeysF_single, wp_append,
    ← str_append_assoc, ← str_append_assoc]

/-! ### Claims -/

/-- C1 (counterexample): a leaf reached by the nested keys `color.fontSize`
is not recorded with its leaf value: `getCSSVariables` records the
formatted value `"16px"`, not the leaf value `16`, under
`--wp--color--font-size`. -/
theorem getCSSVariables_nested_fontSize_formats :
    getCSSVariables [("color", JVal.obj [("fontSize", JVal.num 16)])]
      = [("--wp--color--font-size", JVal.str "16px")] ∧
    JVal.str "16px" ≠ JVal.num 16 := by
  constructor
  · rw [@getCSSVariables_single_nested "color" "fontSize" (JVal.num 16) rfl]
    rfl
  · intro h
    exact JVal.noConfusion h

/-- C1 (amended): for a configuration consisting of a single nested path
`a.b` to a non-object leaf `v`, `getCSSVariables` records the leaf under
the key `"--wp--" ++ kebabCase a ++ "--" ++ kebabCase b` (kebab-cased key
path segments joined by `--`) with the per-key formatter applied to the
leaf value; in particular `{ color: { text: "red" } }` flattens exactly
to `{ "--wp--color--text": "red" }`. -/
theorem getCSSVariables_nested_path_key (a b : String) (v : JVal) (hv : isObjB v = false) :
    getCSSVariables [(a, JVal.obj [(b, v)])]
      = [("--wp--" ++ kebabCase a ++ "--" ++ kebabCase b, valueFormatter b v)] ∧
    getCSSVariables [("color", JVal.obj [("text", JVal.str "red")])]
      = [("--wp--color--text", JVal.str "red")] := by
  refine ⟨getCSSVariables_single_nested hv, ?_⟩
  rw [@getCSSVariables_single_nested "color" "text" (JVal.str "red") rfl]
  rfl

/-- C1 (witness): the amended theorem applied at the concrete
configuration `{ color: { text: "red" } }`. -/
theorem getCSSVariables_nested_path_key_witness :
    getCSSVariables [("color", JVal.obj [("text", JVal.str "red")])]
      = [("--wp--" ++ kebabCase "color" ++ "--" ++ kebabCase "text",
          valueFormatter "text" (JVal.str "red"))] :=
  (getCSSVariables_nested_path_key "color" "text" (JVal.str "red") rfl).1

/-- C2: the only per-key formatter is the one for the leaf key
`fontSize`: it appends `"px"` to a truthy leaf value and leaves a falsy
value unchanged, every other leaf key passes its value through
unmodified, and `{ fontSize: 16 }` flattens exactly to
`{ "--wp--font-size": "16px" }`. -/
theorem getCSSVariables_fontSize_formatter :
    (∀ v : JVal, isObjB v = false →
      getCSSVariables [("fontSize", v)]
        = [("--wp--font-size",
            if truthy v then JVal.str (jsToString v ++ "px") else v)]) ∧
    (∀ (k : String) (v : JVal), isObjB v = false → k ≠ "fontSize" →
      getCSSVariables [(k, v)] = [("--wp--" ++ kebabCase k, v)]) ∧
    getCSSVariables [("fontSize", JVal.num 16)]
      = [("--wp--font-size", JVal.str "16px")] := by
  have hmain : ∀ v : JVal, isObjB v = false →
      getCSSVariables [("fontSize", v)]
        = [("--wp--font-size",
            if truthy v then JVal.str (jsToString v ++ "px") else v)] := by
    intro v hv
    rw [getCSSVariables_single_leaf hv]
    have hk : kebabCase "fontSize" = "font-size" := by decide
    rw [hk]
    have hp : "--wp--" ++ "font-size" = "--wp--font-size" := by decide
    rw [hp]
    simp [valueFormatter]
  refine ⟨hmain, ?_, ?_⟩
  · intro k v hv hk
    rw [getCSSVariables_single_leaf hv]
    simp only [valueFormatter, if_neg hk]
  · rw [hmain (JVal.num 16) rfl]
    rfl

/-- C2 (witness): the theorem applied at the truthy leaf `16` and at a
non-`fontSize` key. -/
theorem getCSSVariables_fontSize_formatter_witness :
    getCSSVariables [("fontSize", JVal.num 16)]
      = [("--wp--font-size",
          if truthy (JVal.num 16) then JVal.str (jsToString (JVal.num 16) ++ "px")
          else JVal.num 16)] ∧
    getCSSVariables [("color", JVal.str "red")]
      = [("--wp--" ++ kebabCase "color", JVal.str "red")] :=
  ⟨getCSSVariables_fontSize_formatter.1 (JVal.num 16) rfl,
   getCSSVariables_fontSize_formatter.2.1 "color" (JVal.str "red") rfl (by decide)⟩

/-- C3: every key of a flattened configuration starts with the fixed root
token `--wp--`, and the empty configuration flattens to the empty
mapping. -/
theorem getCSSVariables_keys_prefixed :
    (∀ (styles : List (String × JVal)) (p : String × JVal),
      p ∈ getCSSVariables styles → ∃ r, p.1 = "--wp--" ++ r) ∧
    getCSSVariables [] = [] := by
  constructor
  · intro styles p hp
    unfold getCSSVariables at hp
    obtain ⟨k, hk⟩ := mem_mapKeysF hp
    exact ⟨k, by rw [hk]; exact wp_append k⟩
  · unfold getCSSVariables getNestedCSSVariables
    simp only [gncvAux]
    rfl

/-- C3 (witness): the theorem applied to the sole entry of the flattening
of `{ color: "red" }`. -/
theorem getCSSVariables_keys_prefixed_witness :
    ∃ r, ("--wp--color", JVal.str "red").1 = "--wp--" ++ r := by
  have he : getCSSVariables [("color", JVal.str "red")]
      = [("--wp--color", JVal.str "red")] := by
    rw [@getCSSVariables_single_leaf "color" (JVal.str "red") rfl]
    rfl
  exact getCSSVariables_keys_prefixed.1 [("color", JVal.str "red")]
    ("--wp--color", JVal.str "red") (by rw [he]; exact List.mem_singleton.mpr rfl)

/-- C5 (counterexample): applying `getCSSVariables` a second time to its
own single-level output does not leave the prefix-stripped keys
unchanged: flattening `{ color: "red" }` twice yields the key
`--wp--wp-color` (kebab-casing collapses the `--wp--` prefix into a
leading `wp-` word), whose prefix-stripped form `wp-color` differs from
`color`. -/
theorem getCSSVariables_reapply_shifts_keys :
    getCSSVariables [("color", JVal.str "red")] = [("--wp--color", JVal.str "red")] ∧
    getCSSVariables (getCSSVariables [("color", JVal.str "red")])
      = [("--wp--wp-color", JVal.str "red")] ∧
    ("wp-color" : String) ≠ "color" := by
  have h1 : getCSSVariables [("color", JVal.str "red")]
      = [("--wp--color", JVal.str "red")] := by
    rw [@getCSSVariables_single_leaf "color" (JVal.str "red") rfl]
    rfl
  have h2 : getCSSVariables [("--wp--color", JVal.str "red")]
      = [("--wp--wp-color", JVal.str "red")] := by
    rw [@getCSSVariables_single_leaf "--wp--color" (JVal.str "red") rfl]
    rfl
  exact ⟨h1, by rw [h1, h2], by decide⟩

/-- C5 (amended): on a single-level configuration whose keys are distinct
dash-case strings and whose values are non-object leaves, kebab-casing
is a no-op on every key, `getCSSVariables` changes no key beyond adding
the `--wp--` prefix and leaves every value unchanged, and the inner
flattening (before prefixing) is idempotent on such an input. -/
theorem getCSSVariables_flat_dashcase (s : List (String × JVal))
    (hnd : (jkeys s).Nodup)
    (h : ∀ p ∈ s, isDashCase p.1 = true ∧ isObjB p.2 = false) :
    getCSSVariables s = s.map (fun p => ("--wp--" ++ p.1, p.2)) ∧
    (∀ p ∈ s, kebabCase p.1 = p.1) ∧
    getNestedCSSVariables (getNestedCSSVariables s) = getNestedCSSVariables s := by
  have hkb : ∀ p ∈ s, kebabCase p.1 = p.1 := fun p hp => kebabCase_of_dashCase (h p hp).1
  have hinner : getNestedCSSVariables s = s := getNestedCSSVariables_dash h hnd
  refine ⟨?_, hkb, by rw [hinner, hinner]⟩
  unfold getCSSVariables
  rw [hinner]
  have hf : Function.Injective (fun k : String => "--wp" ++ "--" ++ k) := by
    intro x y hxy
    simp only at hxy
    rw [wp_append, wp_append] at hxy
    exact wp_inj hxy
  have hndm : (s.map (fun q : String × JVal => "--wp" ++ "--" ++ q.1)).Nodup := by
    have hc : s.map (fun q : String × JVal => "--wp" ++ "--" ++ q.1)
        = (jkeys s).map (fun k => "--wp" ++ "--" ++ k) := by
      simp [jkeys, List.map_map]
    rw [hc]
    exact List.Nodup.map hf hnd
  rw [mapKeysF_eq_map hndm]
  have hfun : (fun q : String × JVal => ("--wp" ++ "--" ++ q.1, q.2))
      = (fun p : String × JVal => ("--wp--" ++ p.1, p.2)) := by
    funext p
    rw [wp_append]
  rw [hfun]

/-- C5 (witness): the amended theorem applied to the single-level
dash-case configuration `{ color: "red" }`. -/
theorem getCSSVariables_flat_dashcase_witness :
    getCSSVariables [("color", JVal.str "red")]
      = [("color", JVal.str "red")].map (fun p => ("--wp--" ++ p.1, p.2)) ∧
    kebabCase "color" = "color" :=
  have happ := getCSSVariables_flat_dashcase [("color", JVal.str "red")]
    (by decide) (by decide)
  ⟨happ.1, happ.2.1 ("color", JVal.str "red") (List.mem_singleton.mpr rfl)⟩

theorem addSaveProps_jget_ne (props : JObj) (bt : BlockSettings) (attrs : JObj)
    {k : String} (hk : k ≠ "style") :
    jget (addSaveProps props bt attrs) k = jget props k := by
  cases hsp : hasStyleSupport bt with
  | false => simp [addSaveProps, hsp]
  | true =>
    simp only [addSaveProps, hsp, Bool.not_true, Bool.false_eq_true, if_false]
    exact jget_jassign_ne hk _ _

/-- C4: when the block type supports a style feature, `addSaveProps`
stores under `props.style` the merge of the generated CSS-variable
mapping with the caller-supplied `style` entries; every caller-supplied
entry survives unchanged (caller wins on collision), and on keys the
caller did not supply the merged object agrees with the generated
mapping. -/
theorem addSaveProps_caller_precedence (props : JObj) (bt : BlockSettings) (attrs : JObj)
    (hs : hasStyleSupport bt = true)
    (hnd : (jkeys (jsEntries ((jget props "style").getD .undefined))).Nodup) :
    jget (addSaveProps props bt attrs) "style"
      = some (JVal.obj (jmerge (getCSSVariablesVal ((jget attrs "style").getD .undefined))
          (jsEntries ((jget props "style").getD .undefined)))) ∧
    (∀ (k : String) (v : JVal),
      jget (jsEntries ((jget props "style").getD .undefined)) k = some v →
      jget (jmerge (getCSSVariablesVal ((jget attrs "style").getD .undefined))
          (jsEntries ((jget props "style").getD .undefined))) k = some v) ∧
    (∀ k : String, jget (jsEntries ((jget props "style").getD .undefined)) k = none →
      jget (jmerge (getCSSVariablesVal ((jget attrs "style").getD .undefined))
          (jsEntries ((jget props "style").getD .undefined))) k
        = jget (getCSSVariablesVal ((jget attrs "style").getD .undefined)) k) := by
  refine ⟨?_, ?_, ?_⟩
  · simp only [addSaveProps, hs, Bool.not_true, Bool.false_eq_true, if_false]
    exact jget_jassign_self _ _ _
  · intro k v hv
    exact jget_jmerge_of_some hnd hv _
  · intro k hk
    exact jget_jmerge_of_not_mem (jget_eq_none_iff.mp hk) _

/-- C4 (witness): the theorem applied to a concrete props/attributes pair
in which the generated key `--wp--color` collides with a caller-supplied
entry (the caller value `"blue"` wins) and the key `--wp--x` is only
caller-supplied. -/
theorem addSaveProps_caller_precedence_witness :
    jget (jmerge
        (getCSSVariablesVal ((jget [("style", JVal.obj [("color", JVal.str "red")])]
          "style").getD .undefined))
        (jsEntries ((jget [("style",
            JVal.obj [("--wp--color", JVal.str "blue"), ("--wp--x", JVal.num 1)])]
          "style").getD .undefined)))
      "--wp--color" = some (JVal.str "blue") ∧
    jget (jmerge
        (getCSSVariablesVal ((jget [("style", JVal.obj [("color", JVal.str "red")])]
          "style").getD .undefined))
        (jsEntries ((jget [("style",
            JVal.obj [("--wp--color", JVal.str "blue"), ("--wp--x", JVal.num 1)])]
          "style").getD .undefined)))
      "--wp--absent"
      = jget (getCSSVariablesVal ((jget
          ([("style", JVal.obj [("color", JVal.str "red")])] : JObj) "style").getD .undefined))
        "--wp--absent" := by
  have happ := addSaveProps_caller_precedence
    [("style", JVal.obj [("--wp--color", JVal.str "blue"), ("--wp--x", JVal.num 1)])]
    ⟨[("color", JVal.bool true)], [], none⟩
    [("style", JVal.obj [("color", JVal.str "red")])]
    (by decide) (by decide)
  exact ⟨happ.2.1 "--wp--color" (JVal.str "blue") rfl, happ.2.2 "--wp--absent" rfl⟩

/-- C10: `addSaveProps` only touches the `style` field of the props
object: with no style support the props are returned with no field
changed at all, every field other than `style` is always left unchanged,
and with style support the result is exactly the props object with its
`style` field assigned (in-place assignment keeps the position of an
existing `style` binding). -/
theorem addSaveProps_frame (props : JObj) (bt : BlockSettings) (attrs : JObj) :
    (hasStyleSupport bt = false → addSaveProps props bt attrs = props) ∧
    (∀ k : String, k ≠ "style" →
      jget (addSaveProps props bt attrs) k = jget props k) ∧
    (hasStyleSupport bt = true → addSaveProps props bt attrs
      = jassign props "style"
          (JVal.obj (jmerge (getCSSVariablesVal ((jget attrs "style").getD .undefined))
            (jsEntries ((jget props "style").getD .undefined))))) := by
  refine ⟨?_, ?_, ?_⟩
  · intro hs
    simp [addSaveProps, hs]
  · intro k hk
    exact addSaveProps_jget_ne props bt attrs hk
  · intro hs
    simp [addSaveProps, hs]

/-- C10 (witness): the frame theorem applied at concrete inputs: a
non-supporting block type returns the props unchanged, and for a
supporting one the `className` field is untouched. -/
theorem addSaveProps_frame_witness :
    addSaveProps [("className", JVal.str "x")] ⟨[], [], none⟩ [] = [("className", JVal.str "x")] ∧
    jget (addSaveProps [("className", JVal.str "x")] ⟨[("color", JVal.bool true)], [], none⟩ [])
        "className"
      = jget [("className", JVal.str "x")] "className" :=
  ⟨(addSaveProps_frame [("className", JVal.str "x")] ⟨[], [], none⟩ []).1 (by decide),
   (addSaveProps_frame [("className", JVal.str "x")] ⟨[("color", JVal.bool true)], [], none⟩ []).2.1
     "className" (by decide)⟩

/-- C6 (counterexample): a block settings object that declares a *falsy*
`style` attribute (here `style: false`) and supports color has its
existing declaration overwritten by the default `{ type: "object" }`:
the code tests `!settings.attributes.style` (falsiness), not absence. -/
theorem addAttribute_overwrites_falsy_declaration :
    (addAttribute ⟨[("color", JVal.bool true)], [("style", JVal.bool false)], none⟩).attributes
      = [("style", JVal.obj [("type", JVal.str "object")])] ∧
    JVal.obj [("type", JVal.str "object")] ≠ JVal.bool false := by
  constructor
  · rfl
  · intro h
    exact JVal.noConfusion h

/-- C6 (amended): `addAttribute` returns the settings unchanged when the
block type supports none of the style features; when it supports one,
the returned settings always carry a `style` attribute declaration, the
default `{ type: "object" }` is installed exactly when the existing
`style` declaration is absent or falsy, and a truthy existing
declaration is never overwritten (the settings are returned unchanged). -/
theorem addAttribute_spec (s : BlockSettings) :
    (hasStyleSupport s = false → addAttribute s = s) ∧
    (hasStyleSupport s = true →
      (truthy ((jget s.attributes "style").getD .undefined) = true → addAttribute s = s) ∧
      (truthy ((jget s.attributes "style").getD .undefined) = false →
        (addAttribute s).attributes = jassign s.attributes "style" styleAttributeDefault) ∧
      (∃ v, jget (addAttribute s).attributes "style" = some v)) := by
  refine ⟨?_, fun hs => ⟨?_, ?_, ?_⟩⟩
  · intro hs
    simp [addAttribute, hs]
  · intro ht
    simp [addAttribute, hs, ht]
  · intro ht
    simp [addAttribute, hs, ht]
  · by_cases ht : truthy ((jget s.attributes "style").getD .undefined) = true
    · cases hj : jget s.attributes "style" with
      | none =>
        rw [hj] at ht
        simp [truthy] at ht
      | some v =>
        refine ⟨v, ?_⟩
        have ht' : truthy v = true := by
          rw [hj] at ht
          simpa using ht
        simp [addAttribute, hs, ht', hj]
    · have ht' : truthy ((jget s.attributes "style").getD .undefined) = false := by
        cases hb : truthy ((jget s.attributes "style").getD .undefined) with
        | true => exact absurd hb ht
        | false => rfl
      refine ⟨styleAttributeDefault, ?_⟩
      simp only [addAttribute, hs, Bool.not_true, Bool.false_eq_true, if_false, ht']
      exact jget_jassign_self _ _ _

/-- C6 (witness): the amended theorem applied at concrete settings: one
without style support (returned unchanged) and one with a truthy
existing `style` declaration (never overwritten). -/
theorem addAttribute_spec_witness :
    addAttribute ⟨[("anchor", JVal.bool true)], [], none⟩
      = (⟨[("anchor", JVal.bool true)], [], none⟩ : BlockSettings) ∧
    addAttribute ⟨[("color", JVal.bool true)],
        [("style", JVal.obj [("type", JVal.str "string")])], none⟩
      = (⟨[("color", JVal.bool true)],
          [("style", JVal.obj [("type", JVal.str "string")])], none⟩ : BlockSettings) :=
  ⟨(addAttribute_spec ⟨[("anchor", JVal.bool true)], [], none⟩).1 (by decide),
   ((addAttribute_spec ⟨[("color", JVal.bool true)],
       [("style", JVal.obj [("type", JVal.str "string")])], none⟩).2 (by decide)).1 (by decide)⟩

/-- C7: for settings that support a style feature, the wrapper-props
function installed by `addEditProps` chains with a previously registered
one: it applies `addSaveProps` to the previous function's result (so
every non-`style` field of that result survives unchanged), and when no
previous function exists it starts from the empty props object. -/
theorem addEditProps_chains (s : BlockSettings) (hs : hasStyleSupport s = true) :
    (∀ f, s.getEditWrapperProps = some f →
      ∃ w, (addEditProps s).getEditWrapperProps = some w ∧
        (∀ attrs, w attrs = addSaveProps (f attrs) s attrs) ∧
        (∀ attrs (k : String), k ≠ "style" →
          jget (w attrs) k = jget (f attrs) k)) ∧
    (s.getEditWrapperProps = none →
      ∃ w, (addEditProps s).getEditWrapperProps = some w ∧
        ∀ attrs, w attrs = addSaveProps [] s attrs) := by
  constructor
  · intro f hf
    refine ⟨fun attrs => addSaveProps (f attrs) s attrs, ?_, fun attrs => rfl, ?_⟩
    · simp only [addEditProps, hs, Bool.not_true, Bool.false_eq_true, if_false]
      rw [hf]
    · intro attrs k hk
      exact addSaveProps_jget_ne (f attrs) s attrs hk
  · intro hf
    refine ⟨fun attrs => addSaveProps [] s attrs, ?_, fun attrs => rfl⟩
    simp only [addEditProps, hs, Bool.not_true, Bool.false_eq_true, if_false]
    rw [hf]

/-- C7 (witness): the theorem applied to concrete settings carrying a
previously registered wrapper-props function. -/
theorem addEditProps_chains_witness :
    ∃ w, (addEditProps ⟨[("color", JVal.bool true)], [],
        some (fun _ => [("align", JVal.str "wide")])⟩).getEditWrapperProps = some w ∧
      (∀ attrs, w attrs
        = addSaveProps ((fun _ => [("align", JVal.str "wide")]) attrs)
            ⟨[("color", JVal.bool true)], [], some (fun _ => [("align", JVal.str "wide")])⟩
            attrs) ∧
      (∀ attrs (k : String), k ≠ "style" →
        jget (w attrs) k = jget ((fun _ => [("align", JVal.str "wide")]) attrs) k) :=
  (addEditProps_chains ⟨[("color", JVal.bool true)], [],
      some (fun _ => [("align", JVal.str "wide")])⟩ (by decide)).1
    (fun _ => [("align", JVal.str "wide")]) rfl

/-- C8: `isItemPinned` is `true` exactly when the value stored at
`pinnedItems/scope/item` in `enableItems.multipleEnableItems` is
strictly `true`; an absent path (`undefined`) and any other stored value
yield `false`. -/
theorem isItemPinned_spec (st : GlobalState) (scope item : String) :
    (isItemPinned st scope item = true ↔
      jpath st.enableItems.multipleEnableItems ["pinnedItems", scope, item]
        = JVal.bool true) ∧
    (jpath st.enableItems.multipleEnableItems ["pinnedItems", scope, item] = JVal.undefined →
      isItemPinned st scope item = false) ∧
    (∀ v : JVal,
      jpath st.enableItems.multipleEnableItems ["pinnedItems", scope, item] = v →
      v ≠ JVal.bool true → isItemPinned st scope item = false) := by
  unfold isItemPinned isMultipleEnabledItemEnabled
  cases hx : jpath st.enableItems.multipleEnableItems ["pinnedItems", scope, item] with
  | bool b =>
    cases b with
    | true =>
      refine ⟨by simp, by simp, ?_⟩
      intro v hv hne
      exact absurd hv.symm hne
    | false => exact ⟨by simp, by simp, fun v hv hne => rfl⟩
  | str s => exact ⟨by simp, by simp, fun v hv hne => rfl⟩
  | num n => exact ⟨by simp, by simp, fun v hv hne => rfl⟩
  | null => exact ⟨by simp, by simp, fun v hv hne => rfl⟩
  | undefined => exact ⟨by simp, by simp, fun v hv hne => rfl⟩
  | obj o => exact ⟨by simp, by simp, fun v hv hne => rfl⟩

/-- C8 (witness): the theorem applied to concrete states: one where the
stored value is the truthy non-`true` value `1` (not pinned) and one
where the path is absent (not pinned). -/
theorem isItemPinned_spec_witness :
    isItemPinned ⟨⟨JVal.undefined,
        JVal.obj [("pinnedItems", JVal.obj [("core", JVal.obj [("x", JVal.num 1)])])]⟩⟩
      "core" "x" = false ∧
    isItemPinned ⟨⟨JVal.undefined, JVal.obj []⟩⟩ "core" "x" = false :=
  ⟨(isItemPinned_spec ⟨⟨JVal.undefined,
      JVal.obj [("pinnedItems", JVal.obj [("core", JVal.obj [("x", JVal.num 1)])])]⟩⟩
      "core" "x").2.2 (JVal.num 1) rfl (fun h => JVal.noConfusion h),
   (isItemPinned_spec ⟨⟨JVal.undefined, JVal.obj []⟩⟩ "core" "x").2.1 rfl⟩

/-- C9: the navigation structure panel renders nothing inside its panel
body when the block sequence is empty; otherwise it renders the toolbar
and the block navigation list with nested blocks shown and the appender
enabled, highlighting the first element of the store's
selected-block-identifier sequence. -/
theorem navigationStructurePanel_spec {α σ : Type} (blocks : List α)
    (selectedBlockClientIds : List String) (selectBlock : σ) :
    (NavigationStructurePanel blocks selectedBlockClientIds selectBlock).panelBodyTitle
        = "Navigation structure" ∧
    (blocks = [] →
      (NavigationStructurePanel blocks selectedBlockClientIds selectBlock).body
        = NavPanelBody.empty) ∧
    (blocks ≠ [] →
      (NavigationStructurePanel blocks selectedBlockClientIds selectBlock).body
        = NavPanelBody.toolbarAndList
            { blocks := blocks
              selectedBlockClientId := selectedBlockClientIds.head?
              selectBlock := selectBlock
              showNestedBlocks := true
              showAppender := true }) := by
  refine ⟨rfl, ?_, ?_⟩
  · intro h
    subst h
    simp [NavigationStructurePanel]
  · intro h
    have hlen : blocks.length ≠ 0 := by
      simpa [List.length_eq_zero] using h
    simp [NavigationStructurePanel, hlen]

/-- C9 (witness): the theorem applied to an empty and to a nonempty
concrete block sequence. -/
theorem navigationStructurePanel_spec_witness :
    (NavigationStructurePanel ([] : List String) ["s1"] ()).body = NavPanelBody.empty ∧
    (NavigationStructurePanel ["b1", "b2"] ["s1", "s2"] ()).body
      = NavPanelBody.toolbarAndList
          { blocks := ["b1", "b2"]
            selectedBlockClientId := (["s1", "s2"] : List String).head?
            selectBlock := ()
            showNestedBlocks := true
            showAppender := true } :=
  ⟨(navigationStructurePanel_spec ([] : List String) ["s1"] ()).2.1 rfl,
   (navigationStructurePanel_spec ["b1", "b2"] ["s1", "s2"] ()).2.2 (by decide)⟩

end Gutenberg
